import Mathlib

/-!
# Verification of the `nthash32` rolling-hash crate

A shallow embedding of `src/lib.rs` (the 32-bit ntHash iterator) together
with from-scratch specification oracles, and theorems relating the two.

Machine integers (`u32`, `u64`) are modelled as `Nat` with explicit
truncation `% 2^32`; Rust panics are modelled as the `Except.error` branch
carrying the panic message; the recoverable constructor errors are the
`RunResult.err` branch. Sequences are `List Nat` of byte values.
-/

namespace Nthash32

/-- Truncation of a natural number to 32 bits, the `as u32` cast. -/
def truncate32 (x : Nat) : Nat := x % 2^32

/-- The 32-bit left rotation `x.rotate_left(n)`: the rotation amount is
implicitly reduced modulo 32. -/
def rotl32 (x n : Nat) : Nat := ((x <<< (n % 32)) % 2^32) ||| (x >>> (32 - n % 32))

/-- The 32-bit right rotation `x.rotate_right(n)`. -/
def rotr32 (x n : Nat) : Nat := (x >>> (n % 32)) ||| ((x <<< (32 - n % 32)) % 2^32)

/-- `MAXIMUM_K_SIZE = u32::max_value() as usize`. -/
def MAXIMUM_K_SIZE : Nat := 2^32 - 1

/-- The forward seed table (`H_LOOKUP`).  Byte values: `A` = 65, `C` = 67,
`G` = 71, `T` = 84, `N` = 78.  The source applies `>> SHIFT` with
`SHIFT = 0`, which is the identity.  All other bytes hold the sentinel 1. -/
def H_LOOKUP (c : Nat) : Nat :=
  if c = 65 then 0x3c8bfbb395c60474
  else if c = 67 then 0x3193c18562a02b4c
  else if c = 71 then 0x20323ed082572324
  else if c = 84 then 0x295549f54be24456
  else if c = 78 then 0
  else 1

/-- The reverse-complement seed table (`RC_LOOKUP`): `A` and `T` swap seeds,
`C` and `G` swap seeds, `N` maps to 0, all other bytes hold the sentinel 1. -/
def RC_LOOKUP (c : Nat) : Nat :=
  if c = 65 then 0x295549f54be24456
  else if c = 67 then 0x20323ed082572324
  else if c = 71 then 0x3193c18562a02b4c
  else if c = 84 then 0x3c8bfbb395c60474
  else if c = 78 then 0
  else 1

/-- The truncated (`as u32`) forward seed of a byte. -/
def hVal (c : Nat) : Nat := truncate32 (H_LOOKUP c)

/-- The truncated (`as u32`) reverse-complement seed of a byte. -/
def rcVal (c : Nat) : Nat := truncate32 (RC_LOOKUP c)

/-- The panic message raised on a non-ACGTN byte, which is formatted as the
literal text followed by the offending byte rendered as a character. -/
def panicMsg (c : Nat) : String :=
  "Non-ACGTN nucleotide encountered! " ++ (Char.ofNat c).toString

/-- The seed lookup `fn h(c: u8) -> u32`: panics (modelled as `Except.error`)
when the truncated seed equals the sentinel 1. -/
def h (c : Nat) : Except String Nat :=
  if hVal c = 1 then .error (panicMsg c) else .ok (hVal c)

/-- The seed lookup `fn rc(nt: u8) -> u32`. -/
def rc (c : Nat) : Except String Nat :=
  if rcVal c = 1 then .error (panicMsg c) else .ok (rcVal c)

/-- The constructor error type (variants declared in the crate's error
module and constructed in `lib.rs`). -/
inductive Error where
  | KSizeOutOfRange (ksize seq_size : Nat)
  | KSizeTooBig (ksize : Nat)
deriving DecidableEq

/-- Modelled from the spec: the crate's error module (`src/error.rs`, the
`Display` impl giving `Error::to_string()`) is not among the provided
sources; the message formats are taken from the specification text and the
integration tests. -/
def Error.message : Error → String
  | .KSizeOutOfRange k n =>
      "K size " ++ toString k ++ " is out of range for the given sequence size " ++ toString n
  | .KSizeTooBig k =>
      "K size " ++ toString k ++ " cannot exceed the size of a u32 " ++ toString MAXIMUM_K_SIZE

/-- Outcome of a computation that may return a recoverable `Error` or abort
the process with a panic message. -/
inductive RunResult (α : Type) where
  | ok (a : α)
  | err (e : Error)
  | panicked (msg : String)
deriving DecidableEq

/-- The iterator state `struct NtHashIterator`. -/
structure NtHashIterator where
  seq : List Nat
  k : Nat
  fh : Nat
  rh : Nat
  current_idx : Nat
  max_idx : Nat
deriving DecidableEq

/-- The forward-hash initialisation loop of `NtHashIterator::new`:
`for (i, v) in seq[0..k].iter().enumerate() { fh ^= h(*v).rotate_left((k - i - 1) as u32) }`,
rendered as a recursion over the window with the running index `i`. -/
def initFhGo (k : Nat) : Nat → List Nat → Nat → Except String Nat
  | _, [], fh => .ok fh
  | i, v :: rest, fh =>
    match h v with
    | .error e => .error e
    | .ok hv => initFhGo k (i+1) rest (fh ^^^ rotl32 hv (k - i - 1))

/-- The reverse-complement-hash initialisation loop of `NtHashIterator::new`,
which walks the window in reverse (`.iter().rev().enumerate()`) using `rc`. -/
def initRhGo (k : Nat) : Nat → List Nat → Nat → Except String Nat
  | _, [], rh => .ok rh
  | i, v :: rest, rh =>
    match rc v with
    | .error e => .error e
    | .ok rv => initRhGo k (i+1) rest (rh ^^^ rotl32 rv (k - i - 1))

/-- `NtHashIterator::new(seq, k)`: validates `k` against the sequence length
and `MAXIMUM_K_SIZE` (in that order), then computes the two initial hashes
over `seq[0..k]`. -/
def NtHashIterator.new (seq : List Nat) (k : Nat) : RunResult NtHashIterator :=
  if k > seq.length then .err (.KSizeOutOfRange k seq.length)
  else if k > MAXIMUM_K_SIZE then .err (.KSizeTooBig k)
  else
    match initFhGo k 0 (seq.take k) 0 with
    | .error e => .panicked e
    | .ok fh =>
      match initRhGo k 0 (seq.take k).reverse 0 with
      | .error e => .panicked e
      | .ok rh =>
        .ok { seq := seq, k := k, fh := fh, rh := rh,
              current_idx := 0, max_idx := seq.length - k + 1 }

/-- `Iterator::next` for `NtHashIterator`.  Returns `(none, it)` once
`current_idx` reaches `max_idx`; otherwise, when `current_idx != 0`,
slides the hash pair by one position (the `as u32` casts and the wrapping
`self.k as u32 - 1` subtraction are modelled explicitly), and in all
yielding cases emits `min(rh, fh)` of the just-updated state and
increments `current_idx`. -/
def NtHashIterator.next (it : NtHashIterator) :
    Except String (Option Nat × NtHashIterator) :=
  if it.current_idx = it.max_idx then .ok (none, it)
  else if it.current_idx ≠ 0 then
    let i := it.current_idx - 1
    let seqi := it.seq.getD i 0
    let seqk := it.seq.getD (i + it.k) 0
    match h seqi with
    | .error e => .error e
    | .ok hi =>
      match h seqk with
      | .error e => .error e
      | .ok hk =>
        match rc seqi with
        | .error e => .error e
        | .ok ri =>
          match rc seqk with
          | .error e => .error e
          | .ok rk =>
            let fh := rotl32 it.fh 1 ^^^ rotl32 hi (truncate32 it.k) ^^^ hk
            let rh := rotr32 it.rh 1 ^^^ rotr32 ri 1 ^^^
                rotl32 rk ((truncate32 it.k + (2^32 - 1)) % 2^32)
            .ok (some (min rh fh),
                 { it with fh := fh, rh := rh, current_idx := it.current_idx + 1 })
  else
    .ok (some (min it.rh it.fh), { it with current_idx := it.current_idx + 1 })

/-- `Iterator::size_hint` for `NtHashIterator`. -/
def NtHashIterator.size_hint (it : NtHashIterator) : Nat × Option Nat :=
  (it.max_idx, some it.max_idx)

/-- Pull up to `fuel` values from the iterator, stopping at exhaustion;
propagates a panic. -/
def collectN (it : NtHashIterator) : Nat → Except String (List Nat)
  | 0 => .ok []
  | fuel+1 =>
    match it.next with
    | .error e => .error e
    | .ok (none, _) => .ok []
    | .ok (some v, it') =>
      match collectN it' fuel with
      | .error e => .error e
      | .ok rest => .ok (v :: rest)

/-- The iterator state after `n` calls to `next` (values discarded). -/
def stepN (it : NtHashIterator) : Nat → Except String NtHashIterator
  | 0 => .ok it
  | fuel+1 =>
    match it.next with
    | .error e => .error e
    | .ok (_, it') => stepN it' fuel

/-- Whether a byte is one of the five alphabet symbols A, C, G, T, N. -/
def validByte (c : Nat) : Bool :=
  c = 65 || c = 67 || c = 71 || c = 84 || c = 78

/-- A sequence whose bytes all lie in the ACGTN alphabet. -/
def validSeq (seq : List Nat) : Prop := ∀ c ∈ seq, validByte c = true

/-- From-scratch forward hash of a whole window: each symbol's seed is
rotated left by its distance from the window's last position. -/
def fwdHash : List Nat → Nat
  | [] => 0
  | c :: rest => rotl32 (hVal c) rest.length ^^^ fwdHash rest

/-- The `fwdHash` schedule applied with the complement table instead. -/
def rcfHash : List Nat → Nat
  | [] => 0
  | c :: rest => rotl32 (rcVal c) rest.length ^^^ rcfHash rest

/-- From-scratch reverse-complement hash of a window: the forward rotation
schedule applied to the symbols in reverse order using the complement table. -/
def rcHash (w : List Nat) : Nat := rcfHash w.reverse

/-- The window of length `k` starting at position `i`. -/
def window (seq : List Nat) (k i : Nat) : List Nat := (seq.drop i).take k

/-- Canonical hash of a window: the minimum of its forward and
reverse-complement hashes. -/
def canonHash (w : List Nat) : Nat := min (fwdHash w) (rcHash w)

/-- XOR of a list of naturals. -/
def xorFold (l : List Nat) : Nat := l.foldl (· ^^^ ·) 0

/-- The section 4.2 forward formula, literally: XOR over `i ∈ [0,k)` of
`rotateLeft32(seedFor(symbol[i]), k-1-i)`. -/
def specFwd (w : List Nat) (k : Nat) : Nat :=
  xorFold ((List.range k).map fun i => rotl32 (hVal (w.getD i 0)) (k - 1 - i))

/-- The section 4.2 reverse-complement formula, literally: XOR over
`i ∈ [0,k)` of `rotateLeft32(complementSeedFor(symbol[k-1-i]), k-1-i)`. -/
def specRc (w : List Nat) (k : Nat) : Nat :=
  xorFold ((List.range k).map fun i => rotl32 (rcVal (w.getD (k - 1 - i) 0)) (k - 1 - i))

/-- Oracle canonical hash of the window at position `i`, recomputed from
scratch with the section 4.2 formulas. -/
def specCanon (seq : List Nat) (k i : Nat) : Nat :=
  min (specFwd (window seq k i) k) (specRc (window seq k i) k)

/-- Complement of a symbol: A↔T, C↔G, anything else (in particular N)
unchanged. -/
def comp (c : Nat) : Nat :=
  if c = 65 then 84 else if c = 84 then 65
  else if c = 67 then 71 else if c = 71 then 67 else c

/-- Reverse complement of a window: symbol order reversed and each symbol
complemented. -/
def revComp (w : List Nat) : List Nat := (w.map comp).reverse

/-- The section 4.3 forward update formula, literally:
`forwardHash' = rotateLeft32(forwardHash, 1) XOR rotateLeft32(seedFor(out), k) XOR seedFor(in)`
(the rotation amount is reduced modulo 32 inside `rotl32`). -/
def specFwdStep (fh out inn k : Nat) : Nat :=
  rotl32 fh 1 ^^^ rotl32 (hVal out) k ^^^ hVal inn

/-- The section 4.3 reverse-complement update formula, literally:
`reverseComplementHash' = rotateRight32(reverseComplementHash, 1) XOR
rotateRight32(complementSeedFor(out), 1) XOR rotateLeft32(complementSeedFor(in), k-1)`. -/
def specRcStep (rh out inn k : Nat) : Nat :=
  rotr32 rh 1 ^^^ rotr32 (rcVal out) 1 ^^^ rotl32 (rcVal inn) (k - 1)

/-- State invariant after `j` calls to `next` on an iterator built over
`seq` with window size `k`: the stored hash pair is the from-scratch pair
of the last emitted window (window 0 before the first call). -/
def Inv (seq : List Nat) (k : Nat) (it : NtHashIterator) (j : Nat) : Prop :=
  it.seq = seq ∧ it.k = k ∧ it.max_idx = seq.length - k + 1 ∧ it.current_idx = j ∧
  j ≤ seq.length - k + 1 ∧
  it.fh = fwdHash (window seq k (j - 1)) ∧ it.rh = rcHash (window seq k (j - 1))

/-! ## Basic XOR algebra -/

lemma xor_left_comm (a b c : Nat) : a ^^^ (b ^^^ c) = b ^^^ (a ^^^ c) := by
  rw [← Nat.xor_assoc, Nat.xor_comm a b, Nat.xor_assoc]

lemma xor_cancel_left (a b : Nat) : a ^^^ (a ^^^ b) = b := by
  simp [← Nat.xor_assoc]

/-! ## Rotation lemmas

The 32-bit rotations are characterised through `Nat.testBit` and all the
algebraic identities about them follow by bit-level extensionality. -/

lemma truncate32_lt (x : Nat) : truncate32 x < 2^32 := Nat.mod_lt _ (by norm_num)

lemma hVal_lt (c : Nat) : hVal c < 2^32 := truncate32_lt _

lemma rcVal_lt (c : Nat) : rcVal c < 2^32 := truncate32_lt _

lemma testBit_high {x : Nat} (hx : x < 2^32) {i : Nat} (hi : 32 ≤ i) :
    x.testBit i = false :=
  Nat.testBit_lt_two_pow (lt_of_lt_of_le hx (Nat.pow_le_pow_right (by norm_num) hi))

lemma rotl32_lt {x : Nat} (hx : x < 2^32) (n : Nat) : rotl32 x n < 2^32 := by
  unfold rotl32
  apply Nat.or_lt_two_pow (Nat.mod_lt _ (by norm_num))
  calc x >>> (32 - n % 32) ≤ x := by
        rw [Nat.shiftRight_eq_div_pow]; exact Nat.div_le_self ..
    _ < 2^32 := hx

lemma rotr32_lt {x : Nat} (hx : x < 2^32) (n : Nat) : rotr32 x n < 2^32 := by
  unfold rotr32
  apply Nat.or_lt_two_pow _ (Nat.mod_lt _ (by norm_num))
  calc x >>> (n % 32) ≤ x := by
        rw [Nat.shiftRight_eq_div_pow]; exact Nat.div_le_self ..
    _ < 2^32 := hx

lemma testBit_rotl32 {x : Nat} (hx : x < 2^32) (n : Nat) {i : Nat} (hi : i < 32) :
    (rotl32 x n).testBit i = x.testBit ((i + 32 - n % 32) % 32) := by
  have hr : n % 32 < 32 := Nat.mod_lt _ (by norm_num)
  unfold rotl32
  rw [Nat.testBit_or, Nat.testBit_mod_two_pow, Nat.testBit_shiftLeft,
    Nat.testBit_shiftRight]
  by_cases hc : n % 32 ≤ i
  · have h1 : x.testBit (32 - n % 32 + i) = false := testBit_high hx (by omega)
    have h2 : (i + 32 - n % 32) % 32 = i - n % 32 := by omega
    simp [h1, h2, hi, hc]
  · have h2 : (i + 32 - n % 32) % 32 = 32 - n % 32 + i := by omega
    simp [h2, hc]

lemma eq32_of_testBit {a b : Nat} (ha : a < 2^32) (hb : b < 2^32)
    (h : ∀ i, i < 32 → a.testBit i = b.testBit i) : a = b := by
  apply Nat.eq_of_testBit_eq
  intro i
  by_cases hi : i < 32
  · exact h i hi
  · rw [testBit_high ha (by omega), testBit_high hb (by omega)]

lemma rotl32_amount_congr {a b : Nat} (x : Nat) (hab : a % 32 = b % 32) :
    rotl32 x a = rotl32 x b := by
  unfold rotl32; rw [hab]

lemma rotl32_zero_amount {x : Nat} (hx : x < 2^32) : rotl32 x 0 = x := by
  unfold rotl32
  have h32 : x >>> 32 = 0 := by
    rw [Nat.shiftRight_eq_div_pow]; exact Nat.div_eq_of_lt hx
  simp only [Nat.zero_mod, Nat.shiftLeft_zero, Nat.sub_zero, h32, Nat.or_zero]
  exact Nat.mod_eq_of_lt hx

lemma rotl32_zero (n : Nat) : rotl32 0 n = 0 := by
  simp [rotl32]

lemma rotl32_rotl32 {x : Nat} (hx : x < 2^32) (a b : Nat) :
    rotl32 (rotl32 x a) b = rotl32 x (a + b) := by
  apply eq32_of_testBit (rotl32_lt (rotl32_lt hx a) b) (rotl32_lt hx (a + b))
  intro i hi
  rw [testBit_rotl32 (rotl32_lt hx a) b hi,
    testBit_rotl32 hx a (show (i + 32 - b % 32) % 32 < 32 by omega),
    testBit_rotl32 hx (a + b) hi]
  congr 1
  omega

lemma rotl32_xor {x y : Nat} (hx : x < 2^32) (hy : y < 2^32) (n : Nat) :
    rotl32 (x ^^^ y) n = rotl32 x n ^^^ rotl32 y n := by
  apply eq32_of_testBit (rotl32_lt (Nat.xor_lt_two_pow hx hy) n)
    (Nat.xor_lt_two_pow (rotl32_lt hx n) (rotl32_lt hy n))
  intro i hi
  rw [testBit_rotl32 (Nat.xor_lt_two_pow hx hy) n hi, Nat.testBit_xor,
    Nat.testBit_xor, testBit_rotl32 hx n hi, testBit_rotl32 hy n hi]

lemma testBit_rotr32 {x : Nat} (hx : x < 2^32) (n : Nat) {i : Nat} (hi : i < 32) :
    (rotr32 x n).testBit i = x.testBit ((i + n % 32) % 32) := by
  have hr : n % 32 < 32 := Nat.mod_lt _ (by norm_num)
  unfold rotr32
  rw [Nat.testBit_or, Nat.testBit_shiftRight, Nat.testBit_mod_two_pow,
    Nat.testBit_shiftLeft]
  by_cases hc : i + n % 32 < 32
  · have h2 : (i + n % 32) % 32 = n % 32 + i := by omega
    have h3 : ¬ (32 - n % 32 ≤ i) := by omega
    simp [h2, h3]
  · have h1 : x.testBit (n % 32 + i) = false := testBit_high hx (by omega)
    have h2 : (i + n % 32) % 32 = i - (32 - n % 32) := by omega
    simp [h1, h2, hi, show 32 - n % 32 ≤ i by omega]

lemma rotr32_eq_rotl32 {x : Nat} (hx : x < 2^32) (n : Nat) :
    rotr32 x n = rotl32 x (32 - n % 32) := by
  apply eq32_of_testBit (rotr32_lt hx n) (rotl32_lt hx _)
  intro i hi
  rw [testBit_rotr32 hx n hi, testBit_rotl32 hx _ hi]
  congr 1
  omega

lemma rotl32_full {x : Nat} (hx : x < 2^32) : rotl32 x 32 = x := by
  rw [rotl32_amount_congr x (show 32 % 32 = 0 % 32 by norm_num), rotl32_zero_amount hx]

lemma rotr32_rotl32_one {x : Nat} (hx : x < 2^32) : rotr32 (rotl32 x 1) 1 = x := by
  rw [rotr32_eq_rotl32 (rotl32_lt hx 1), rotl32_rotl32 hx]
  exact rotl32_full hx

/-! ## From-scratch hash lemmas -/

lemma fwdHash_lt (w : List Nat) : fwdHash w < 2^32 := by
  induction w with
  | nil => norm_num [fwdHash]
  | cons c t ih => exact Nat.xor_lt_two_pow (rotl32_lt (hVal_lt c) _) ih

lemma rcfHash_lt (w : List Nat) : rcfHash w < 2^32 := by
  induction w with
  | nil => norm_num [rcfHash]
  | cons c t ih => exact Nat.xor_lt_two_pow (rotl32_lt (rcVal_lt c) _) ih

lemma rcHash_lt (w : List Nat) : rcHash w < 2^32 := rcfHash_lt _

lemma fwdHash_append (m : List Nat) (b : Nat) :
    fwdHash (m ++ [b]) = rotl32 (fwdHash m) 1 ^^^ hVal b := by
  induction m with
  | nil => simp [fwdHash, rotl32_zero, rotl32_zero_amount (hVal_lt b)]
  | cons c t ih =>
    have h1 : rotl32 (fwdHash (c :: t)) 1
        = rotl32 (hVal c) (t.length + 1) ^^^ rotl32 (fwdHash t) 1 := by
      rw [show fwdHash (c :: t) = rotl32 (hVal c) t.length ^^^ fwdHash t from rfl,
        rotl32_xor (rotl32_lt (hVal_lt c) _) (fwdHash_lt t), rotl32_rotl32 (hVal_lt c)]
    rw [show (c :: t) ++ [b] = c :: (t ++ [b]) from rfl,
      show fwdHash (c :: (t ++ [b]))
        = rotl32 (hVal c) (t ++ [b]).length ^^^ fwdHash (t ++ [b]) from rfl,
      ih, h1]
    simp [Nat.xor_assoc]

lemma rcfHash_append (m : List Nat) (b : Nat) :
    rcfHash (m ++ [b]) = rotl32 (rcfHash m) 1 ^^^ rcVal b := by
  induction m with
  | nil => simp [rcfHash, rotl32_zero, rotl32_zero_amount (rcVal_lt b)]
  | cons c t ih =>
    have h1 : rotl32 (rcfHash (c :: t)) 1
        = rotl32 (rcVal c) (t.length + 1) ^^^ rotl32 (rcfHash t) 1 := by
      rw [show rcfHash (c :: t) = rotl32 (rcVal c) t.length ^^^ rcfHash t from rfl,
        rotl32_xor (rotl32_lt (rcVal_lt c) _) (rcfHash_lt t), rotl32_rotl32 (rcVal_lt c)]
    rw [show (c :: t) ++ [b] = c :: (t ++ [b]) from rfl,
      show rcfHash (c :: (t ++ [b]))
        = rotl32 (rcVal c) (t ++ [b]).length ^^^ rcfHash (t ++ [b]) from rfl,
      ih, h1]
    simp [Nat.xor_assoc]

/-! ## The sliding-step identities -/

lemma fwd_slide (c b : Nat) (m : List Nat) :
    rotl32 (fwdHash (c :: m)) 1 ^^^ rotl32 (hVal c) (m.length + 1) ^^^ hVal b
      = fwdHash (m ++ [b]) := by
  rw [show fwdHash (c :: m) = rotl32 (hVal c) m.length ^^^ fwdHash m from rfl,
    rotl32_xor (rotl32_lt (hVal_lt c) _) (fwdHash_lt m), rotl32_rotl32 (hVal_lt c),
    fwdHash_append]
  generalize rotl32 (hVal c) (m.length + 1) = A
  generalize rotl32 (fwdHash m) 1 = B
  generalize hVal b = C
  rw [Nat.xor_comm A B, Nat.xor_assoc B A, Nat.xor_self, Nat.xor_zero]

lemma rc_slide (c b : Nat) (m : List Nat) :
    rotr32 (rcHash (c :: m)) 1 ^^^ rotr32 (rcVal c) 1 ^^^ rotl32 (rcVal b) m.length
      = rcHash (m ++ [b]) := by
  unfold rcHash
  rw [show (c :: m).reverse = m.reverse ++ [c] by simp,
    show (m ++ [b]).reverse = b :: m.reverse by simp,
    show rcfHash (b :: m.reverse) = rotl32 (rcVal b) m.reverse.length ^^^ rcfHash m.reverse
      from rfl,
    rcfHash_append, rotr32_eq_rotl32 (Nat.xor_lt_two_pow (rotl32_lt (rcfHash_lt _) 1)
      (rcVal_lt c)),
    rotl32_xor (rotl32_lt (rcfHash_lt m.reverse) 1) (rcVal_lt c),
    rotl32_rotl32 (rcfHash_lt m.reverse),
    show (1 : Nat) + (32 - 1 % 32) = 32 by norm_num, rotl32_full (rcfHash_lt m.reverse),
    rotr32_eq_rotl32 (rcVal_lt c), List.length_reverse]
  generalize rcfHash m.reverse = R
  generalize rotl32 (rcVal c) (32 - 1 % 32) = A
  generalize rotl32 (rcVal b) m.length = B
  rw [Nat.xor_assoc R A A, Nat.xor_self, Nat.xor_zero, Nat.xor_comm R B]

/-! ## Valid symbols and non-panicking lookups -/

lemma h_ok {c : Nat} (hc : validByte c = true) : h c = .ok (hVal c) := by
  unfold validByte at hc
  simp only [Bool.or_eq_true, decide_eq_true_eq] at hc
  rcases hc with (((rfl | rfl) | rfl) | rfl) | rfl <;> rfl

lemma rc_ok {c : Nat} (hc : validByte c = true) : rc c = .ok (rcVal c) := by
  unfold validByte at hc
  simp only [Bool.or_eq_true, decide_eq_true_eq] at hc
  rcases hc with (((rfl | rfl) | rfl) | rfl) | rfl <;> rfl

lemma validSeq_getD {seq : List Nat} (hv : validSeq seq) {i : Nat}
    (hi : i < seq.length) : validByte (seq.getD i 0) = true := by
  rw [List.getD_eq_getElem seq 0 hi]
  exact hv _ (List.getElem_mem hi)

/-! ## XOR folds and the section 4.2 formulas -/

lemma foldl_xor_acc (l : List Nat) (a : Nat) :
    l.foldl (· ^^^ ·) a = a ^^^ l.foldl (· ^^^ ·) 0 := by
  induction l generalizing a with
  | nil => simp
  | cons x t ih =>
    simp only [List.foldl]
    rw [ih (a ^^^ x), ih (0 ^^^ x), Nat.zero_xor, Nat.xor_assoc]

lemma xorFold_cons (x : Nat) (l : List Nat) : xorFold (x :: l) = x ^^^ xorFold l := by
  unfold xorFold
  simp only [List.foldl]
  rw [foldl_xor_acc, Nat.zero_xor]

lemma specFwd_eq_fwdHash (w : List Nat) : specFwd w w.length = fwdHash w := by
  induction w with
  | nil => rfl
  | cons c t ih =>
    unfold specFwd at *
    rw [List.length_cons, List.range_succ_eq_map, List.map_cons, List.map_map,
      xorFold_cons]
    have htail : ((fun i => rotl32 (hVal ((c :: t).getD i 0)) (t.length + 1 - 1 - i))
          ∘ Nat.succ)
        = fun i => rotl32 (hVal (t.getD i 0)) (t.length - 1 - i) := by
      funext i
      simp only [Function.comp_apply, List.getD_cons_succ]
      congr 1
      omega
    rw [htail, ih]
    simp [fwdHash]

lemma rcAux_eq (w : List Nat) :
    xorFold ((List.range w.length).map
      fun i => rotl32 (rcVal (w.getD i 0)) (w.length - 1 - i)) = rcfHash w := by
  induction w with
  | nil => rfl
  | cons c t ih =>
    rw [List.length_cons, List.range_succ_eq_map, List.map_cons, List.map_map,
      xorFold_cons]
    have htail : ((fun i => rotl32 (rcVal ((c :: t).getD i 0)) (t.length + 1 - 1 - i))
          ∘ Nat.succ)
        = fun i => rotl32 (rcVal (t.getD i 0)) (t.length - 1 - i) := by
      funext i
      simp only [Function.comp_apply, List.getD_cons_succ]
      congr 1
      omega
    rw [htail, ih]
    simp [rcfHash]

lemma specFwd_eq {w : List Nat} {k : Nat} (hw : w.length = k) :
    specFwd w k = fwdHash w := by
  subst hw; exact specFwd_eq_fwdHash w

lemma getD_reverse {w : List Nat} {i : Nat} (hi : i < w.length) :
    w.reverse.getD i 0 = w.getD (w.length - 1 - i) 0 := by
  rw [List.getD_eq_getElem _ 0 (by simpa using hi),
    List.getD_eq_getElem _ 0 (by omega)]
  exact List.getElem_reverse ..

lemma specRc_eq {w : List Nat} {k : Nat} (hw : w.length = k) :
    specRc w k = rcHash w := by
  subst hw
  unfold specRc rcHash
  have hmap : (List.range w.length).map
        (fun i => rotl32 (rcVal (w.getD (w.length - 1 - i) 0)) (w.length - 1 - i))
      = (List.range w.length).map
        (fun i => rotl32 (rcVal (w.reverse.getD i 0)) (w.length - 1 - i)) := by
    apply List.map_congr_left
    intro i hi
    rw [List.mem_range] at hi
    rw [getD_reverse hi]
  rw [hmap]
  have hlen : w.length = w.reverse.length := (List.length_reverse w).symm
  rw [show (List.range w.length).map
        (fun i => rotl32 (rcVal (w.reverse.getD i 0)) (w.length - 1 - i))
      = (List.range w.reverse.length).map
        (fun i => rotl32 (rcVal (w.reverse.getD i 0)) (w.reverse.length - 1 - i)) by
    rw [← hlen]]
  exact rcAux_eq w.reverse

lemma specCanon_eq {seq : List Nat} {k i : Nat} (hw : (window seq k i).length = k) :
    specCanon seq k i = canonHash (window seq k i) := by
  unfold specCanon canonHash
  rw [specFwd_eq hw, specRc_eq hw]

/-! ## Window surgery -/

lemma window_length {seq : List Nat} {k i : Nat} (h : i + k ≤ seq.length) :
    (window seq k i).length = k := by
  simp only [window, List.length_take, List.length_drop]
  omega

lemma window_zero (seq : List Nat) (k : Nat) : window seq k 0 = seq.take k := by
  simp [window]

lemma window_cons {seq : List Nat} {k i : Nat} (hk : 1 ≤ k) (h : i + k ≤ seq.length) :
    window seq k i = seq.getD i 0 :: (seq.drop (i+1)).take (k-1) := by
  unfold window
  obtain ⟨k', rfl⟩ : ∃ k', k = k' + 1 := ⟨k - 1, by omega⟩
  rw [List.drop_eq_getElem_cons (show i < seq.length by omega), List.take_succ_cons,
    List.getD_eq_getElem seq 0 (show i < seq.length by omega)]
  simp

lemma window_snoc {seq : List Nat} {k i : Nat} (hk : 1 ≤ k)
    (h : i + 1 + k ≤ seq.length) :
    window seq k (i+1) = (seq.drop (i+1)).take (k-1) ++ [seq.getD (i+k) 0] := by
  unfold window
  obtain ⟨k', rfl⟩ : ∃ k', k = k' + 1 := ⟨k - 1, by omega⟩
  have hlt : k' < (seq.drop (i+1)).length := by
    rw [List.length_drop]; omega
  have hidx : i + 1 + k' < seq.length := by omega
  have hopt : (seq.drop (i+1))[k']? = some (seq.getD (i + (k' + 1)) 0) := by
    have heq : i + (k' + 1) = i + 1 + k' := by omega
    rw [List.getElem?_eq_getElem hlt, heq,
      List.getD_eq_getElem seq 0 (show i + 1 + k' < seq.length from hidx)]
    exact congrArg some (List.getElem_drop ..)
  rw [List.take_succ, hopt]
  simp

lemma valid_window {seq : List Nat} (hv : validSeq seq) (k i : Nat) :
    ∀ c ∈ window seq k i, validByte c = true := by
  intro c hc
  exact hv c (List.drop_subset i seq (List.take_subset k _ hc))

lemma valid_take {seq : List Nat} (hv : validSeq seq) (k : Nat) :
    ∀ c ∈ seq.take k, validByte c = true :=
  fun c hc => hv c (List.take_subset k seq hc)

/-! ## Characterising the constructor -/

lemma initFhGo_ok {w : List Nat} (hvalid : ∀ c ∈ w, validByte c = true)
    (k : Nat) : ∀ (i acc : Nat), i + w.length = k →
    initFhGo k i w acc = .ok (acc ^^^ fwdHash w) := by
  induction w with
  | nil => intro i acc _; simp [initFhGo, fwdHash]
  | cons c t ih =>
    intro i acc hik
    have hc : validByte c = true := hvalid c (List.mem_cons_self c t)
    have ht : ∀ x ∈ t, validByte x = true := fun x hx => hvalid x (List.mem_cons_of_mem c hx)
    simp only [initFhGo, h_ok hc]
    rw [ih ht (i+1) (acc ^^^ rotl32 (hVal c) (k - i - 1)) (by simp at hik ⊢; omega)]
    have hamt : k - i - 1 = t.length := by simp at hik; omega
    rw [hamt, show fwdHash (c :: t) = rotl32 (hVal c) t.length ^^^ fwdHash t from rfl,
      Nat.xor_assoc]

lemma initRhGo_ok {w : List Nat} (hvalid : ∀ c ∈ w, validByte c = true)
    (k : Nat) : ∀ (i acc : Nat), i + w.length = k →
    initRhGo k i w acc = .ok (acc ^^^ rcfHash w) := by
  induction w with
  | nil => intro i acc _; simp [initRhGo, rcfHash]
  | cons c t ih =>
    intro i acc hik
    have hc : validByte c = true := hvalid c (List.mem_cons_self c t)
    have ht : ∀ x ∈ t, validByte x = true := fun x hx => hvalid x (List.mem_cons_of_mem c hx)
    simp only [initRhGo, rc_ok hc]
    rw [ih ht (i+1) (acc ^^^ rotl32 (rcVal c) (k - i - 1)) (by simp at hik ⊢; omega)]
    have hamt : k - i - 1 = t.length := by simp at hik; omega
    rw [hamt, show rcfHash (c :: t) = rotl32 (rcVal c) t.length ^^^ rcfHash t from rfl,
      Nat.xor_assoc]

lemma new_ok {seq : List Nat} {k : Nat} (hv : validSeq seq) (hkn : k ≤ seq.length)
    (hkm : k ≤ MAXIMUM_K_SIZE) :
    NtHashIterator.new seq k
      = .ok ⟨seq, k, fwdHash (window seq k 0), rcHash (window seq k 0), 0,
             seq.length - k + 1⟩ := by
  unfold NtHashIterator.new
  rw [if_neg (by omega), if_neg (by omega)]
  rw [initFhGo_ok (valid_take hv k) k 0 0 (by simp [List.length_take]; omega)]
  rw [initRhGo_ok (fun c hc => valid_take hv k c (List.mem_reverse.mp hc)) k 0 0
    (by simp [List.length_take]; omega)]
  rw [window_zero]
  simp [rcHash]

/-! ## The iteration invariant -/

lemma new_Inv (seq : List Nat) (k : Nat) :
    Inv seq k ⟨seq, k, fwdHash (window seq k 0), rcHash (window seq k 0), 0,
      seq.length - k + 1⟩ 0 := by
  refine ⟨rfl, rfl, rfl, rfl, by omega, ?_, ?_⟩ <;> rfl

lemma next_step {seq : List Nat} {k j : Nat} {it : NtHashIterator}
    (hv : validSeq seq) (hk1 : 1 ≤ k) (hkn : k ≤ seq.length)
    (hkm : k ≤ MAXIMUM_K_SIZE)
    (hinv : Inv seq k it j) (hj : j < seq.length - k + 1) :
    it.next = .ok (some (canonHash (window seq k j)),
      ⟨seq, k, fwdHash (window seq k j), rcHash (window seq k j), j + 1,
       seq.length - k + 1⟩) := by
  obtain ⟨h1, h2, h3, h4, h5, h6, h7⟩ := hinv
  have h32 : (2:Nat)^32 = 4294967296 := by norm_num
  have hkmax : k ≤ 2^32 - 1 := hkm
  unfold NtHashIterator.next
  rw [h4, h3, h1, h2, h6, h7]
  rw [if_neg (by omega : ¬ (j = seq.length - k + 1))]
  cases j with
  | zero =>
    rw [if_neg (by simp : ¬ ((0:Nat) ≠ 0))]
    simp only [Nat.zero_sub, Nat.zero_add, canonHash, Nat.min_comm]
  | succ j' =>
    rw [if_pos (by omega : j' + 1 ≠ 0)]
    have hvi : validByte (seq.getD j' 0) = true := validSeq_getD hv (by omega)
    have hvk : validByte (seq.getD (j' + k) 0) = true := validSeq_getD hv (by omega)
    simp only [Nat.add_sub_cancel]
    simp only [h_ok hvi, h_ok hvk, rc_ok hvi, rc_ok hvk]
    have htr : truncate32 k = k := Nat.mod_eq_of_lt (by omega)
    set m : List Nat := (seq.drop (j'+1)).take (k-1) with hm
    have hwc : window seq k j' = seq.getD j' 0 :: m := window_cons hk1 (by omega)
    have hws : window seq k (j'+1) = m ++ [seq.getD (j'+k) 0] :=
      window_snoc hk1 (by omega)
    have hmlen : m.length = k - 1 := by
      rw [hm, List.length_take, List.length_drop]; omega
    have hFH : rotl32 (fwdHash (window seq k j')) 1
          ^^^ rotl32 (hVal (seq.getD j' 0)) (truncate32 k)
          ^^^ hVal (seq.getD (j' + k) 0)
        = fwdHash (window seq k (j' + 1)) := by
      have hs := fwd_slide (seq.getD j' 0) (seq.getD (j' + k) 0) m
      rw [show m.length + 1 = k by omega] at hs
      rw [htr, hwc, hws, ← hs]
    have hRH : rotr32 (rcHash (window seq k j')) 1
          ^^^ rotr32 (rcVal (seq.getD j' 0)) 1
          ^^^ rotl32 (rcVal (seq.getD (j' + k) 0))
              ((truncate32 k + (2^32 - 1)) % 2^32)
        = rcHash (window seq k (j' + 1)) := by
      have hs := rc_slide (seq.getD j' 0) (seq.getD (j' + k) 0) m
      rw [hmlen] at hs
      have hamt : (truncate32 k + (2^32 - 1)) % 2^32 = k - 1 := by
        rw [htr]; omega
      rw [hamt, hwc, hws, ← hs]
    rw [hFH, hRH]
    simp only [canonHash, Nat.min_comm]

lemma next_exhausted {seq : List Nat} {k : Nat} {it : NtHashIterator}
    (hinv : Inv seq k it (seq.length - k + 1)) : it.next = .ok (none, it) := by
  obtain ⟨h1, h2, h3, h4, h5, h6, h7⟩ := hinv
  unfold NtHashIterator.next
  rw [h4, h3, if_pos rfl]

lemma stepN_of_none {it : NtHashIterator} (hnext : it.next = .ok (none, it)) :
    ∀ m, stepN it m = .ok it := by
  intro m
  induction m with
  | zero => rfl
  | succ m ih =>
    rw [stepN, hnext]
    exact ih

lemma collectN_of_none {it : NtHashIterator} (hnext : it.next = .ok (none, it))
    (f : Nat) : collectN it f = .ok [] := by
  cases f with
  | zero => rfl
  | succ f => rw [collectN, hnext]

lemma collect_from {seq : List Nat} {k : Nat}
    (hv : validSeq seq) (hk1 : 1 ≤ k) (hkn : k ≤ seq.length)
    (hkm : k ≤ MAXIMUM_K_SIZE) :
    ∀ (f j : Nat) (it : NtHashIterator), Inv seq k it j →
      seq.length - k + 1 - j ≤ f →
      collectN it f = .ok ((List.range' j (seq.length - k + 1 - j)).map
        (fun i => canonHash (window seq k i))) := by
  intro f
  induction f with
  | zero =>
    intro j it hinv hle
    rw [show seq.length - k + 1 - j = 0 by omega]
    rfl
  | succ f ih =>
    intro j it hinv hle
    by_cases hj : j = seq.length - k + 1
    · have hnext : it.next = .ok (none, it) := next_exhausted (hj ▸ hinv)
      rw [collectN, hnext, show seq.length - k + 1 - j = 0 by omega]
      rfl
    · have hjlt : j < seq.length - k + 1 := by
        have h5 := hinv.2.2.2.2.1
        omega
      have hstep := next_step hv hk1 hkn hkm hinv hjlt
      have hinv' : Inv seq k ⟨seq, k, fwdHash (window seq k j),
          rcHash (window seq k j), j + 1, seq.length - k + 1⟩ (j + 1) :=
        ⟨rfl, rfl, rfl, rfl, by omega, by simp, by simp⟩
      rw [collectN, hstep]
      show (match collectN ⟨seq, k, fwdHash (window seq k j),
            rcHash (window seq k j), j + 1, seq.length - k + 1⟩ f with
        | Except.error e => Except.error e
        | Except.ok rest => Except.ok (canonHash (window seq k j) :: rest))
        = Except.ok ((List.range' j (seq.length - k + 1 - j)).map
            (fun i => canonHash (window seq k i)))
      rw [ih (j+1) _ hinv' (by omega)]
      rw [show seq.length - k + 1 - j = (seq.length - k + 1 - (j+1)) + 1 by omega,
        List.range'_succ]
      rfl

lemma stepN_Inv {seq : List Nat} {k : Nat}
    (hv : validSeq seq) (hk1 : 1 ≤ k) (hkn : k ≤ seq.length)
    (hkm : k ≤ MAXIMUM_K_SIZE) :
    ∀ (d j : Nat) (it : NtHashIterator), Inv seq k it j →
      j + d ≤ seq.length - k + 1 →
      ∃ itF, stepN it d = .ok itF ∧ Inv seq k itF (j + d) := by
  intro d
  induction d with
  | zero => exact fun j it hinv _ => ⟨it, rfl, hinv⟩
  | succ d ih =>
    intro j it hinv hle
    have hjlt : j < seq.length - k + 1 := by omega
    have hstep := next_step hv hk1 hkn hkm hinv hjlt
    have hinv' : Inv seq k ⟨seq, k, fwdHash (window seq k j),
        rcHash (window seq k j), j + 1, seq.length - k + 1⟩ (j + 1) :=
      ⟨rfl, rfl, rfl, rfl, by omega, by simp, by simp⟩
    obtain ⟨itF, hrun, hinvF⟩ := ih (j+1) _ hinv' (by omega)
    refine ⟨itF, ?_, by rw [show j + (d+1) = j + 1 + d by omega]; exact hinvF⟩
    rw [stepN, hstep]
    exact hrun

/-- Every intermediate state reachable by `next` calls from a freshly
constructed iterator satisfies the invariant at some index. -/
lemma stepN_reachable {seq : List Nat} {k : Nat}
    (hv : validSeq seq) (hk1 : 1 ≤ k) (hkn : k ≤ seq.length)
    (hkm : k ≤ MAXIMUM_K_SIZE) :
    ∀ (m j : Nat) (it itF : NtHashIterator), Inv seq k it j →
      stepN it m = .ok itF → ∃ j', Inv seq k itF j' := by
  intro m
  induction m with
  | zero =>
    intro j it itF hinv hrun
    rw [show itF = it by cases hrun; rfl]
    exact ⟨j, hinv⟩
  | succ m ih =>
    intro j it itF hinv hrun
    by_cases hj : j = seq.length - k + 1
    · have hnext : it.next = .ok (none, it) := next_exhausted (hj ▸ hinv)
      rw [stepN, hnext] at hrun
      exact ih j it itF hinv hrun
    · have hjlt : j < seq.length - k + 1 := by
        have h5 := hinv.2.2.2.2.1
        omega
      have hstep := next_step hv hk1 hkn hkm hinv hjlt
      have hinv' : Inv seq k ⟨seq, k, fwdHash (window seq k j),
          rcHash (window seq k j), j + 1, seq.length - k + 1⟩ (j + 1) :=
        ⟨rfl, rfl, rfl, rfl, by omega, by simp, by simp⟩
      rw [stepN, hstep] at hrun
      exact ih (j+1) _ itF hinv' hrun

/-! ## Complement symmetry -/

lemma hVal_comp {c : Nat} (hc : validByte c = true) : hVal (comp c) = rcVal c := by
  unfold validByte at hc
  simp only [Bool.or_eq_true, decide_eq_true_eq] at hc
  rcases hc with (((rfl | rfl) | rfl) | rfl) | rfl <;> rfl

lemma rcVal_comp {c : Nat} (hc : validByte c = true) : rcVal (comp c) = hVal c := by
  unfold validByte at hc
  simp only [Bool.or_eq_true, decide_eq_true_eq] at hc
  rcases hc with (((rfl | rfl) | rfl) | rfl) | rfl <;> rfl

lemma fwdHash_map_comp {w : List Nat} (hv : ∀ c ∈ w, validByte c = true) :
    fwdHash (w.map comp) = rcfHash w := by
  induction w with
  | nil => rfl
  | cons c t ih =>
    have hc : validByte c = true := hv c (List.mem_cons_self c t)
    have ht : ∀ x ∈ t, validByte x = true := fun x hx => hv x (List.mem_cons_of_mem c hx)
    show rotl32 (hVal (comp c)) (t.map comp).length ^^^ fwdHash (t.map comp)
      = rotl32 (rcVal c) t.length ^^^ rcfHash t
    rw [List.length_map, hVal_comp hc, ih ht]

lemma rcfHash_map_comp {w : List Nat} (hv : ∀ c ∈ w, validByte c = true) :
    rcfHash (w.map comp) = fwdHash w := by
  induction w with
  | nil => rfl
  | cons c t ih =>
    have hc : validByte c = true := hv c (List.mem_cons_self c t)
    have ht : ∀ x ∈ t, validByte x = true := fun x hx => hv x (List.mem_cons_of_mem c hx)
    show rotl32 (rcVal (comp c)) (t.map comp).length ^^^ rcfHash (t.map comp)
      = rotl32 (hVal c) t.length ^^^ fwdHash t
    rw [List.length_map, rcVal_comp hc, ih ht]

lemma fwdHash_revComp {w : List Nat} (hv : ∀ c ∈ w, validByte c = true) :
    fwdHash (revComp w) = rcHash w := by
  unfold revComp rcHash
  rw [← List.map_reverse]
  exact fwdHash_map_comp (fun c hc => hv c (List.mem_reverse.mp hc))

lemma rcHash_revComp {w : List Nat} (hv : ∀ c ∈ w, validByte c = true) :
    rcHash (revComp w) = fwdHash w := by
  unfold revComp rcHash
  rw [List.reverse_reverse]
  exact rcfHash_map_comp hv

/-! ## Structural preservation (no validity assumptions) -/

lemma next_preserves {it : NtHashIterator} {x : Option Nat} {it' : NtHashIterator}
    (hnx : it.next = .ok (x, it')) :
    it'.max_idx = it.max_idx ∧ it'.seq = it.seq ∧ it'.k = it.k := by
  unfold NtHashIterator.next at hnx
  split at hnx
  · cases hnx; exact ⟨rfl, rfl, rfl⟩
  · split at hnx
    · dsimp only at hnx
      split at hnx
      · cases hnx
      · split at hnx
        · cases hnx
        · split at hnx
          · cases hnx
          · split at hnx
            · cases hnx
            · cases hnx; exact ⟨rfl, rfl, rfl⟩
    · cases hnx; exact ⟨rfl, rfl, rfl⟩

lemma stepN_preserves : ∀ (m : Nat) {it itm : NtHashIterator},
    stepN it m = .ok itm →
    itm.max_idx = it.max_idx ∧ itm.seq = it.seq ∧ itm.k = it.k := by
  intro m
  induction m with
  | zero =>
    intro it itm hrun
    cases hrun
    exact ⟨rfl, rfl, rfl⟩
  | succ m ih =>
    intro it itm hrun
    rw [stepN] at hrun
    split at hrun
    · cases hrun
    · rename_i x hx
      obtain ⟨hm, hs, hk⟩ := ih hrun
      obtain ⟨hm', hs', hk'⟩ := next_preserves hx
      exact ⟨hm.trans hm', hs.trans hs', hk.trans hk'⟩

lemma new_fields {seq : List Nat} {k : Nat} {it : NtHashIterator}
    (hnew : NtHashIterator.new seq k = .ok it) :
    it.seq = seq ∧ it.k = k ∧ it.current_idx = 0
      ∧ it.max_idx = seq.length - k + 1 := by
  unfold NtHashIterator.new at hnew
  split at hnew
  · cases hnew
  · split at hnew
    · cases hnew
    · split at hnew
      · cases hnew
      · split at hnew
        · cases hnew
        · cases hnew; exact ⟨rfl, rfl, rfl, rfl⟩

/-! ## Sentinel characterisation -/

lemma hVal_sentinel (b : Nat) : hVal b = 1 ↔ validByte b = false := by
  by_cases h1 : b = 65
  · subst h1; decide
  · by_cases h2 : b = 67
    · subst h2; decide
    · by_cases h3 : b = 71
      · subst h3; decide
      · by_cases h4 : b = 84
        · subst h4; decide
        · by_cases h5 : b = 78
          · subst h5; decide
          · unfold hVal H_LOOKUP validByte truncate32
            rw [if_neg h1, if_neg h2, if_neg h3, if_neg h4, if_neg h5]
            simp [h1, h2, h3, h4, h5]

lemma rcVal_sentinel (b : Nat) : rcVal b = 1 ↔ validByte b = false := by
  by_cases h1 : b = 65
  · subst h1; decide
  · by_cases h2 : b = 67
    · subst h2; decide
    · by_cases h3 : b = 71
      · subst h3; decide
      · by_cases h4 : b = 84
        · subst h4; decide
        · by_cases h5 : b = 78
          · subst h5; decide
          · unfold rcVal RC_LOOKUP validByte truncate32
            rw [if_neg h1, if_neg h2, if_neg h3, if_neg h4, if_neg h5]
            simp [h1, h2, h3, h4, h5]

/-! ## Claim theorems -/

/-- C1: for every sequence over `{A,C,G,T,N}` and every `k` in `[1, length]`,
the canonical-hash stream produced by the iterator (initial window hash
followed by incremental updates) equals the sequence obtained by
independently recomputing each window's forward and reverse-complement
hashes from scratch with the section 4.2 formulas (`specFwd`, `specRc`)
and taking the minimum at each position. -/
theorem claim_C1_oracle_equivalence {seq : List Nat} {k : Nat} {it : NtHashIterator}
    (hv : validSeq seq) (hk1 : 1 ≤ k) (hkn : k ≤ seq.length)
    (hnew : NtHashIterator.new seq k = .ok it)
    (f : Nat) (hf : seq.length - k + 1 ≤ f) :
    collectN it f = .ok ((List.range (seq.length - k + 1)).map (specCanon seq k)) := by
  have hkm : k ≤ MAXIMUM_K_SIZE := by
    by_contra hcon
    unfold NtHashIterator.new at hnew
    rw [if_neg (by omega), if_pos (by omega)] at hnew
    cases hnew
  rw [new_ok hv hkn hkm] at hnew
  injection hnew with hit
  subst hit
  rw [collect_from hv hk1 hkn hkm f 0 _ (new_Inv seq k) (by omega)]
  congr 1
  rw [Nat.sub_zero, List.range_eq_range']
  apply List.map_congr_left
  intro i hi
  rw [List.mem_range'] at hi
  exact (specCanon_eq (window_length (by omega))).symm

theorem claim_C1_witness :
    collectN ⟨[65,67,84,71,67], 3, fwdHash (window [65,67,84,71,67] 3 0),
        rcHash (window [65,67,84,71,67] 3 0), 0, [65,67,84,71,67].length - 3 + 1⟩ 3
      = .ok ((List.range ([65,67,84,71,67].length - 3 + 1)).map
          (specCanon [65,67,84,71,67] 3)) :=
  claim_C1_oracle_equivalence (by unfold validSeq; decide) (by decide) (by decide)
    (by rfl) 3 (by decide)

/-- C2: for a successfully constructed iterator state (so `1 ≤ k` and
`k ≤ MAXIMUM_K_SIZE`) whose current index is positive and not yet at
`max_idx`, with valid outgoing and incoming symbols, `next` updates the
hash pair exactly by the section 4.3 formulas: the new forward hash is
`rotl32 fh 1 ^^^ rotl32 (seed out) k ^^^ seed in` and the new
reverse-complement hash is
`rotr32 rh 1 ^^^ rotr32 (rcSeed out) 1 ^^^ rotl32 (rcSeed in) (k-1)`,
where every rotation amount is reduced modulo 32 (inside `rotl32`/`rotr32`). -/
theorem claim_C2_update_formulas {it : NtHashIterator}
    (hk1 : 1 ≤ it.k) (hkm : it.k ≤ MAXIMUM_K_SIZE)
    (hi0 : it.current_idx ≠ 0) (him : it.current_idx ≠ it.max_idx)
    (hvi : validByte (it.seq.getD (it.current_idx - 1) 0) = true)
    (hvk : validByte (it.seq.getD (it.current_idx - 1 + it.k) 0) = true) :
    it.next = .ok (some (min
        (specRcStep it.rh (it.seq.getD (it.current_idx - 1) 0)
          (it.seq.getD (it.current_idx - 1 + it.k) 0) it.k)
        (specFwdStep it.fh (it.seq.getD (it.current_idx - 1) 0)
          (it.seq.getD (it.current_idx - 1 + it.k) 0) it.k)),
      { it with
          fh := specFwdStep it.fh (it.seq.getD (it.current_idx - 1) 0)
            (it.seq.getD (it.current_idx - 1 + it.k) 0) it.k,
          rh := specRcStep it.rh (it.seq.getD (it.current_idx - 1) 0)
            (it.seq.getD (it.current_idx - 1 + it.k) 0) it.k,
          current_idx := it.current_idx + 1 }) := by
  unfold NtHashIterator.next
  rw [if_neg him, if_pos hi0]
  simp only [h_ok hvi, h_ok hvk, rc_ok hvi, rc_ok hvk]
  unfold specFwdStep specRcStep
  have hkmax : it.k ≤ 2^32 - 1 := hkm
  have e1 : rotl32 (hVal (it.seq.getD (it.current_idx - 1) 0)) (truncate32 it.k)
      = rotl32 (hVal (it.seq.getD (it.current_idx - 1) 0)) it.k :=
    rotl32_amount_congr _ (by unfold truncate32; omega)
  have e2 : rotl32 (rcVal (it.seq.getD (it.current_idx - 1 + it.k) 0))
        ((truncate32 it.k + (2^32 - 1)) % 2^32)
      = rotl32 (rcVal (it.seq.getD (it.current_idx - 1 + it.k) 0)) (it.k - 1) :=
    rotl32_amount_congr _ (by unfold truncate32; omega)
  rw [e1, e2]

theorem claim_C2_witness :
    (⟨[65,67,71], 2, 5, 7, 1, 2⟩ : NtHashIterator).next
      = .ok (some (min (specRcStep 7 65 71 2) (specFwdStep 5 65 71 2)),
        ⟨[65,67,71], 2, specFwdStep 5 65 71 2, specRcStep 7 65 71 2, 2, 2⟩) :=
  claim_C2_update_formulas (by decide) (by decide) (by decide) (by decide)
    (by decide) (by decide)

/-- C3: after successful construction with `1 ≤ k ≤ length` on a valid
sequence, the initial forward hash is the XOR over `i ∈ [0,k)` of
`rotl32 (seed (symbol i)) (k-1-i)` and the initial reverse-complement hash
is the XOR over `i ∈ [0,k)` of `rotl32 (rcSeed (symbol (k-1-i))) (k-1-i)`
(the `specFwd`/`specRc` formulas on the first `k` symbols). -/
theorem claim_C3_initial_hashes {seq : List Nat} {k : Nat} {it : NtHashIterator}
    (hv : validSeq seq) (hk1 : 1 ≤ k) (hkn : k ≤ seq.length)
    (hnew : NtHashIterator.new seq k = .ok it) :
    it.fh = specFwd (seq.take k) k ∧ it.rh = specRc (seq.take k) k := by
  have hkm : k ≤ MAXIMUM_K_SIZE := by
    by_contra hcon
    unfold NtHashIterator.new at hnew
    rw [if_neg (by omega), if_pos (by omega)] at hnew
    cases hnew
  rw [new_ok hv hkn hkm] at hnew
  injection hnew with hit
  subst hit
  have hlen : (seq.take k).length = k := by rw [List.length_take]; omega
  constructor
  · show fwdHash (window seq k 0) = specFwd (seq.take k) k
    rw [window_zero, specFwd_eq hlen]
  · show rcHash (window seq k 0) = specRc (seq.take k) k
    rw [window_zero, specRc_eq hlen]

theorem claim_C3_witness :
    (⟨[65,67,84], 2, fwdHash (window [65,67,84] 2 0), rcHash (window [65,67,84] 2 0),
        0, [65,67,84].length - 2 + 1⟩ : NtHashIterator).fh
      = specFwd ([65,67,84].take 2) 2
    ∧ (⟨[65,67,84], 2, fwdHash (window [65,67,84] 2 0), rcHash (window [65,67,84] 2 0),
        0, [65,67,84].length - 2 + 1⟩ : NtHashIterator).rh
      = specRc ([65,67,84].take 2) 2 :=
  claim_C3_initial_hashes (by unfold validSeq; decide) (by decide) (by decide) (by rfl)

/-- C4: for every byte `b`, the lookups `h b` and `rc b` abort (with the
message `panicMsg b`, carrying the offending byte) exactly when `b` is not
one of `{A,C,G,T,N}`; on those five bytes the truncated 32-bit seeds never
equal the sentinel 1 and the lookups return normally. -/
theorem claim_C4_lookup_aborts {b : Nat} (hb : b < 256) :
    ((h b = .error (panicMsg b) ∧ rc b = .error (panicMsg b)) ↔ validByte b = false)
    ∧ (validByte b = true →
        hVal b ≠ 1 ∧ rcVal b ≠ 1 ∧ h b = .ok (hVal b) ∧ rc b = .ok (rcVal b)) := by
  have h1 := hVal_sentinel b
  have h2 := rcVal_sentinel b
  constructor
  · constructor
    · intro ⟨ha, _⟩
      by_contra hcon
      rw [Bool.not_eq_false] at hcon
      have hn1 : hVal b ≠ 1 := by
        intro he
        have hf := h1.mp he
        rw [hf] at hcon
        cases hcon
      unfold h at ha
      rw [if_neg hn1] at ha
      cases ha
    · intro hinv
      exact ⟨by unfold h; rw [if_pos (h1.mpr hinv)],
        by unfold rc; rw [if_pos (h2.mpr hinv)]⟩
  · intro hvb
    have hn1 : hVal b ≠ 1 := by
      intro he
      rw [h1.mp he] at hvb
      cases hvb
    have hn2 : rcVal b ≠ 1 := by
      intro he
      rw [h2.mp he] at hvb
      cases hvb
    exact ⟨hn1, hn2, by unfold h; rw [if_neg hn1], by unfold rc; rw [if_neg hn2]⟩

theorem claim_C4_witness :
    ((h 69 = .error (panicMsg 69) ∧ rc 69 = .error (panicMsg 69))
      ↔ validByte 69 = false)
    ∧ (validByte 69 = true →
        hVal 69 ≠ 1 ∧ rcVal 69 ≠ 1 ∧ h 69 = .ok (hVal 69) ∧ rc 69 = .ok (rcVal 69)) :=
  claim_C4_lookup_aborts (by decide)

/-- C5: for every sequence of length `n` and every `k > n`, `new` returns
the recoverable error `KSizeOutOfRange` carrying exactly `k` and `n`, whose
message reads `K size {k} is out of range for the given sequence size {n}`. -/
theorem claim_C5_ksize_out_of_range {seq : List Nat} {k : Nat} (hk : seq.length < k) :
    NtHashIterator.new seq k = .err (.KSizeOutOfRange k seq.length)
    ∧ (Error.KSizeOutOfRange k seq.length).message
      = "K size " ++ toString k ++ " is out of range for the given sequence size "
        ++ toString seq.length := by
  refine ⟨?_, rfl⟩
  unfold NtHashIterator.new
  rw [if_pos (by omega)]

theorem claim_C5_witness :
    NtHashIterator.new [84,71,67,65,71] 10 = .err (.KSizeOutOfRange 10 5)
    ∧ (Error.KSizeOutOfRange 10 5).message
      = "K size 10 is out of range for the given sequence size 5" := by
  have hc := claim_C5_ksize_out_of_range
    (show ([84,71,67,65,71] : List Nat).length < 10 by decide)
  exact ⟨hc.1, hc.2.trans (by decide)⟩

/-- C6 counterexample: on the empty sequence with `k = 2^32`, the length
check fires first and `new` returns `KSizeOutOfRange`, not `KSizeTooBig`,
refuting the claim for sequences shorter than `k`. -/
theorem claim_C6_counterexample :
    NtHashIterator.new [] (2^32) = .err (.KSizeOutOfRange (2^32) 0)
    ∧ NtHashIterator.new [] (2^32) ≠ .err (.KSizeTooBig (2^32)) := by
  have hfirst : NtHashIterator.new [] (2^32) = .err (.KSizeOutOfRange (2^32) 0) := by
    unfold NtHashIterator.new
    rw [if_pos (by norm_num)]
    rfl
  refine ⟨hfirst, ?_⟩
  rw [hfirst]
  intro hcon
  injection hcon with he
  cases he

/-- C6 (amended): for every sequence whose length is at least `k` and every
`k` exceeding `MAXIMUM_K_SIZE = 2^32 - 1`, `new` returns `KSizeTooBig`
carrying that `k` (when the sequence is shorter than `k`, the earlier
length check returns `KSizeOutOfRange` instead). -/
theorem claim_C6_amended {seq : List Nat} {k : Nat} (hbig : MAXIMUM_K_SIZE < k)
    (hlen : k ≤ seq.length) :
    NtHashIterator.new seq k = .err (.KSizeTooBig k) := by
  unfold NtHashIterator.new
  rw [if_neg (by omega), if_pos (by omega)]

theorem claim_C6_witness :
    NtHashIterator.new (List.replicate (2^32) 65) (2^32) = .err (.KSizeTooBig (2^32)) :=
  claim_C6_amended (by norm_num [MAXIMUM_K_SIZE]) (by rw [List.length_replicate])

/-- C7: a successfully constructed iterator over a valid sequence with
`1 ≤ k ≤ n` yields exactly `n - k + 1` values (for any fuel at least that
large), and after `n - k + 1` steps it reaches a state from which `next`
yields no value and never changes the state again. -/
theorem claim_C7_count_and_exhaustion {seq : List Nat} {k : Nat} {it : NtHashIterator}
    (hv : validSeq seq) (hk1 : 1 ≤ k) (hkn : k ≤ seq.length)
    (hnew : NtHashIterator.new seq k = .ok it) :
    (∀ f, seq.length - k + 1 ≤ f →
      ∃ l, collectN it f = .ok l ∧ l.length = seq.length - k + 1)
    ∧ ∃ itF, stepN it (seq.length - k + 1) = .ok itF
        ∧ itF.next = .ok (none, itF) ∧ ∀ m, stepN itF m = .ok itF := by
  have hkm : k ≤ MAXIMUM_K_SIZE := by
    by_contra hcon
    unfold NtHashIterator.new at hnew
    rw [if_neg (by omega), if_pos (by omega)] at hnew
    cases hnew
  rw [new_ok hv hkn hkm] at hnew
  injection hnew with hit
  subst hit
  constructor
  · intro f hf
    refine ⟨_, collect_from hv hk1 hkn hkm f 0 _ (new_Inv seq k) (by omega), ?_⟩
    rw [List.length_map, List.length_range']
    omega
  · obtain ⟨itF, hrun, hinvF⟩ :=
      stepN_Inv hv hk1 hkn hkm (seq.length - k + 1) 0 _ (new_Inv seq k) (by omega)
    have hinvF' : Inv seq k itF (seq.length - k + 1) := by
      rwa [Nat.zero_add] at hinvF
    have hnone := next_exhausted hinvF'
    exact ⟨itF, hrun, hnone, stepN_of_none hnone⟩

theorem claim_C7_witness :
    (∀ f, [65,67,84,71,67].length - 3 + 1 ≤ f →
      ∃ l, collectN ⟨[65,67,84,71,67], 3, fwdHash (window [65,67,84,71,67] 3 0),
          rcHash (window [65,67,84,71,67] 3 0), 0, [65,67,84,71,67].length - 3 + 1⟩ f
        = .ok l ∧ l.length = [65,67,84,71,67].length - 3 + 1)
    ∧ ∃ itF, stepN ⟨[65,67,84,71,67], 3, fwdHash (window [65,67,84,71,67] 3 0),
          rcHash (window [65,67,84,71,67] 3 0), 0, [65,67,84,71,67].length - 3 + 1⟩
          ([65,67,84,71,67].length - 3 + 1) = .ok itF
        ∧ itF.next = .ok (none, itF) ∧ ∀ m, stepN itF m = .ok itF :=
  claim_C7_count_and_exhaustion (by unfold validSeq; decide) (by decide) (by decide)
    (by rfl)

/-- C8: for every window over `{A,C,G,T,N}`, the canonical hash (minimum of
the from-scratch forward and reverse-complement hashes) of its reverse
complement equals its own canonical hash — the value is independent of
strand orientation. -/
theorem claim_C8_strand_independence {w : List Nat}
    (hv : ∀ c ∈ w, validByte c = true) :
    canonHash (revComp w) = canonHash w := by
  unfold canonHash
  rw [fwdHash_revComp hv, rcHash_revComp hv, Nat.min_comm]

theorem claim_C8_witness :
    canonHash (revComp [65,67,71,84,78]) = canonHash [65,67,71,84,78] :=
  claim_C8_strand_independence (by decide)

/-- C9: for every successfully constructed iterator, `size_hint` returns
`(n - k + 1, some (n - k + 1))` at every point of the iteration (after any
number of `next` calls): the reported length is constant and never
decremented. -/
theorem claim_C9_size_hint_constant {seq : List Nat} {k : Nat} (m : Nat)
    {it itm : NtHashIterator}
    (hnew : NtHashIterator.new seq k = .ok it) (hrun : stepN it m = .ok itm) :
    itm.size_hint = (seq.length - k + 1, some (seq.length - k + 1)) := by
  obtain ⟨hs, hk, hc, hm⟩ := new_fields hnew
  obtain ⟨hm', -, -⟩ := stepN_preserves m hrun
  unfold NtHashIterator.size_hint
  rw [hm', hm]

theorem claim_C9_witness :
    (⟨[65], 1, fwdHash (window [65] 1 0), rcHash (window [65] 1 0), 1,
        [65].length - 1 + 1⟩ : NtHashIterator).size_hint
      = ([65].length - 1 + 1, some ([65].length - 1 + 1)) :=
  claim_C9_size_hint_constant 1 (by rfl) (by rfl)

/-- C10: `new(seq, 0)` succeeds for every sequence (there is no `k ≥ 1`
check), with both initial hashes the empty XOR fold `0` and
`max_idx = length + 1` total windows, and the first `next` call yields the
value `0`. -/
theorem claim_C10_k_zero (seq : List Nat) :
    NtHashIterator.new seq 0 = .ok ⟨seq, 0, 0, 0, 0, seq.length + 1⟩
    ∧ (⟨seq, 0, 0, 0, 0, seq.length + 1⟩ : NtHashIterator).next
      = .ok (some 0, ⟨seq, 0, 0, 0, 1, seq.length + 1⟩) := by
  constructor
  · unfold NtHashIterator.new
    rw [if_neg (by omega), if_neg (by unfold MAXIMUM_K_SIZE; omega)]
    rfl
  · unfold NtHashIterator.next
    rw [if_neg (by omega : ¬ ((0:Nat) = seq.length + 1))]
    rw [if_neg (by simp : ¬ ((0:Nat) ≠ 0))]
    rfl

end Nthash32
